import Mathlib

/-!
Verification of the core simulation engine of `color_war` (src/main.rs).

The embedding translates the simulation-relevant parts of `GameState`:
the grid of cells, `place_tile`, `check_explosions` (FIFO chain-reaction
propagation), `check_elimination` and the turn-advance loop.  Presentation
fields of the Rust `Cell` (animation start/source, exploding flag, delay)
and of `GameState` (animations, turn messages) only feed the renderer and
are omitted; `power` (a `u8` in the source) is modelled as `Nat`, which
agrees with the source wherever powers stay below 256.

The source's unbounded loops (the `while let Some(..) = queue.pop_front()`
propagation loop and the `while !alive` turn-skip loop) are modelled with
explicit fuel, returning `none` when the fuel is exhausted, so that
non-termination of the source appears as `none` for every fuel.
-/

set_option autoImplicit false

namespace ColorWar

/-- Constant `ROWS` from the source. -/
def ROWS : Nat := 8

/-- Constant `COLS` from the source. -/
def COLS : Nat := 8

/-- Constant `PLAYERS` from the source. -/
def PLAYERS : Nat := 4

/-- Simulation part of `Cell`: `owner: Option<usize>` and `power: u8`. -/
structure Cell where
  owner : Option Nat
  power : Nat
deriving DecidableEq, Repr

/-- Constructor `Cell::new()`: no owner, zero power. -/
def Cell.new : Cell := ⟨none, 0⟩

instance : Inhabited Cell := ⟨Cell.new⟩

/-- The grid `[[Cell; COLS]; ROWS]`, as a list of rows. -/
abbrev Grid : Type := List (List Cell)

/-- Read a cell; out-of-range reads give the default cell (the source
would panic, but every caller in the source checks bounds first). -/
def getCell (g : Grid) (r c : Nat) : Cell :=
  ((List.getD g r []).getD c Cell.new)

/-- Write a cell (no-op out of range, mirroring that the source never
writes out of range). -/
def setCell (g : Grid) (r c : Nat) (v : Cell) : Grid :=
  List.set g r ((List.getD g r []).set c v)

/-- Well-formedness: 8 rows of 8 columns, as built by `GameState::new`. -/
def wfGrid (g : Grid) : Prop :=
  List.length g = ROWS ∧ ∀ row ∈ g, List.length row = COLS

/-- Method `GameState::max_capacity`: fixed capacity 4 for all cells. -/
def max_capacity (_row _col : Nat) : Nat := 4

/-- Method `GameState::get_neighbors`: the up-to-four orthogonal neighbours, in
source order (up, down, left, right). -/
def get_neighbors (row col : Nat) : List (Nat × Nat) :=
  (if 0 < row then [(row - 1, col)] else []) ++
  (if row < ROWS - 1 then [(row + 1, col)] else []) ++
  (if 0 < col then [(row, col - 1)] else []) ++
  (if col < COLS - 1 then [(row, col + 1)] else [])

-- The explosion propagation of `check_explosions` (src/main.rs:245-284).

/-- The initial scan of `check_explosions`: enqueue every cell whose power
is at or above capacity, in row-major order, tagged with wave 0. -/
def scanQueue (g : Grid) : List (Nat × Nat × Nat) :=
  (List.range ROWS).flatMap (fun r =>
    (List.range COLS).filterMap (fun c =>
      if max_capacity r c ≤ (getCell g r c).power then some (r, c, 0) else none))

/-- One neighbour update of the explosion loop body: increment the
neighbour's power, set its owner to the exploding cell's prior owner
unconditionally, and enqueue it at wave `w + 1` if it reached capacity. -/
def bumpCell (ow : Option Nat) (w : Nat) (acc : Grid × List (Nat × Nat × Nat))
    (p : Nat × Nat) : Grid × List (Nat × Nat × Nat) :=
  let pw := (getCell acc.1 p.1 p.2).power + 1
  let g2 := setCell acc.1 p.1 p.2 ⟨ow, pw⟩
  if max_capacity p.1 p.2 ≤ pw then (g2, acc.2 ++ [(p.1, p.2, w + 1)])
  else (g2, acc.2)

/-- The body of the `while let Some((r, c, wave))` loop: record the prior
owner, reset the exploding cell to `(None, 0)`, then update each
neighbour in source order.  Returns the new grid and the entries pushed
onto the back of the queue. -/
def explodeCell (g : Grid) (r c w : Nat) : Grid × List (Nat × Nat × Nat) :=
  let ow := (getCell g r c).owner
  (get_neighbors r c).foldl (bumpCell ow w) (setCell g r c ⟨none, 0⟩, [])

/-- One iteration of the propagation loop on the full `(grid, queue)`
state: pop the front entry (if any) and explode it. -/
def stepExplosion : Grid × List (Nat × Nat × Nat) → Grid × List (Nat × Nat × Nat)
  | (g, []) => (g, [])
  | (g, (r, c, w) :: q) =>
    let res := explodeCell g r c w
    (res.1, q ++ res.2)

/-- The propagation loop with explicit fuel: `none` means the loop was
still running after `fuel` pops (the source loop has no bound). -/
def runQueue : Nat → Grid → List (Nat × Nat × Nat) → Option Grid
  | _, g, [] => some g
  | 0, _, _ :: _ => none
  | fuel + 1, g, (r, c, w) :: q =>
    let res := explodeCell g r c w
    runQueue fuel res.1 (q ++ res.2)

/-- Method `GameState::check_explosions`, acting on the grid. -/
def check_explosions (g : Grid) (fuel : Nat) : Option Grid :=
  runQueue fuel g (scanQueue g)

-- Game state and the remaining operations (src/main.rs:52-241).

/-- The simulation fields of `GameState`; `animations` and
`turn_messages` only feed the renderer and are omitted. -/
structure State where
  grid : Grid
  players : Nat
  current_player : Nat
  player_order : List Nat
  turn_number : Nat
  first_moves : List Bool
  players_alive : List Bool
  game_over : Bool
  winner : Option Nat
deriving DecidableEq, Repr

/-- The inner scan of `check_elimination`: whether `player` owns at least
one cell (the source's row/column loop with early break). -/
def player_has_tiles (g : Grid) (p : Nat) : Bool :=
  (List.range ROWS).any (fun r =>
    (List.range COLS).any (fun c => (getCell g r c).owner == some p))

/-- The recomputed `players_alive` vector. -/
def aliveList (g : Grid) (n : Nat) : List Bool :=
  (List.range n).map (player_has_tiles g)

/-- The count `self.players_alive.iter().filter(|&&alive| alive).count()`. -/
def countTrue (l : List Bool) : Nat := List.length (l.filter id)

/-- The search `self.players_alive.iter().position(|&alive| alive)`. -/
def firstTrueIdx : List Bool → Option Nat
  | [] => none
  | true :: _ => some 0
  | false :: t => (firstTrueIdx t).map (· + 1)

/-- Method `GameState::check_elimination` (src/main.rs:172-199). -/
def check_elimination (s : State) : State :=
  if s.first_moves.any id then s
  else
    let alive := aliveList s.grid s.players
    if countTrue alive = 1 then
      { s with players_alive := alive, winner := firstTrueIdx alive,
               game_over := true }
    else { s with players_alive := alive }

/-- One turn increment: `turn_number = (turn_number + 1) % players;
current_player = player_order[turn_number]`. -/
def advanceOnce (s : State) : State :=
  let t := (s.turn_number + 1) % s.players
  { s with turn_number := t, current_player := s.player_order.getD t 0 }

/-- The `while !self.players_alive[self.current_player]` skip loop, with
fuel; `PLAYERS` steps reach every candidate, so `none` models the
source's infinite loop when no player is alive. -/
def skipDead : Nat → State → Option State
  | 0, _ => none
  | fuel + 1, s =>
    if s.players_alive.getD s.current_player false then some s
    else skipDead fuel (advanceOnce s)

/-- The turn-advance block at the end of a legal `place_tile`. -/
def advance_turn (s : State) : Option State := skipDead PLAYERS (advanceOnce s)

/-- Method `GameState::place_tile` (src/main.rs:207-241).  `fuel` bounds the
explosion loop; `none` means the call never returned. -/
def place_tile (s : State) (row col : Nat) (fuel : Nat) : Option State :=
  if s.game_over then some s
  else
    let cell := getCell s.grid row col
    let is_first_move := s.first_moves.getD s.current_player false
    if (is_first_move = true ∧ cell.owner = none) ∨
       (is_first_move = false ∧ cell.owner = some s.current_player) then
      let g1 := setCell s.grid row col
        ⟨some s.current_player, if is_first_move then 3 else cell.power + 1⟩
      let fm := if is_first_move then s.first_moves.set s.current_player false
                else s.first_moves
      match check_explosions g1 fuel with
      | none => none
      | some g2 =>
        let s2 := check_elimination { s with grid := g2, first_moves := fm }
        if s2.game_over then some s2 else advance_turn s2
    else some s

/-- A sequence of `place_tile` calls; `none` if any call fails to return. -/
def apply_moves : State → List (Nat × Nat) → Nat → Option State
  | s, [], _ => some s
  | s, (r, c) :: ms, fuel =>
    match place_tile s r c fuel with
    | none => none
    | some s' => apply_moves s' ms fuel

/-- Constructor `GameState::new` with the randomly shuffled `player_order` as a
parameter (the shuffle is the only randomness in the source). -/
def init_state (order : List Nat) : State :=
  { grid := List.replicate ROWS (List.replicate COLS Cell.new)
  , players := PLAYERS
  , current_player := order.getD 0 0
  , player_order := order
  , turn_number := 0
  , first_moves := List.replicate PLAYERS true
  , players_alive := List.replicate PLAYERS true
  , game_over := false
  , winner := none }

/-- The state invariant: a well-formed grid with all powers below
capacity (a "rest" state). -/
def restState (s : State) : Prop :=
  wfGrid s.grid ∧ ∀ i, i < ROWS → ∀ j, j < COLS →
    (getCell s.grid i j).power < max_capacity i j

-- Concrete boards and games used as witnesses.

/-- The empty 8x8 board. -/
def emptyGrid : Grid := List.replicate ROWS (List.replicate COLS Cell.new)

/-- An at-rest board with a single corner cell raised to capacity. -/
def cornerGrid : Grid := setCell emptyGrid 0 0 ⟨some 0, 4⟩

/-- A fresh game with turn order 0,1,2,3 (one of the orders the source's
shuffle can produce). -/
def demoStart : State := init_state [0, 1, 2, 3]

/-- Four first moves in a 2x2 block, then player 0 re-places on their own
cell (1,1), raising it from power 3 to 4. -/
def demoMoves : List (Nat × Nat) := [(1, 1), (0, 1), (1, 0), (0, 0), (1, 1)]

/-- The state after the demo game (all five calls complete). -/
def demoFinal : State := (apply_moves demoStart demoMoves 10).getD demoStart

/-- A state in which every player has made a first move and only player 1
owns a cell. -/
def elimState : State :=
  { grid := setCell emptyGrid 2 2 ⟨some 1, 2⟩
  , players := 4, current_player := 1, player_order := [0, 1, 2, 3]
  , turn_number := 1, first_moves := List.replicate 4 false
  , players_alive := List.replicate 4 true, game_over := false
  , winner := none }

/-- A state in which every player has made a first move and nobody owns a
cell (a simultaneous full wipe). -/
def c8State : State :=
  { grid := emptyGrid
  , players := 4, current_player := 0, player_order := [0, 1, 2, 3]
  , turn_number := 0, first_moves := List.replicate 4 false
  , players_alive := List.replicate 4 true, game_over := false
  , winner := none }

/-- Construction invariants of `GameState`: 4 players, a valid turn index,
`current_player = player_order[turn_number]`, valid entries in the turn
order, and an 8x8 grid. -/
def wfState (s : State) : Prop :=
  s.players = PLAYERS ∧
  s.turn_number < PLAYERS ∧
  s.current_player = s.player_order.getD s.turn_number 0 ∧
  (∀ i, i < PLAYERS → s.player_order.getD i 0 < PLAYERS) ∧
  wfGrid s.grid

/-- The demo game state after the four first moves (before the fifth
call). -/
def demo4 : State :=
  (apply_moves demoStart [(1, 1), (0, 1), (1, 0), (0, 0)] 10).getD demoStart

/-- The grid built by the fifth demo call (player 0 re-placing on (1,1)),
at the moment `check_explosions` starts. -/
def c10Grid : Grid := setCell demo4.grid 1 1 ⟨some 0, 4⟩

/-- The uniform at-rest board: every cell owned by player 0 at power 3. -/
def satBase : Grid :=
  (List.range ROWS).map (fun _ =>
    (List.range COLS).map (fun _ => (⟨some 0, 3⟩ : Cell)))

/-- Board `satBase` right after a legal placement by player 0 at (4,4). -/
def satGrid : Grid := setCell satBase 4 4 ⟨some 0, 4⟩

/-- The state after player 0's first move at (2,3) in the demo game. -/
def c5After : State := (place_tile demoStart 2 3 6).getD demoStart

/-- The invariant of every reachable game state: a well-formed state at
rest, in which, as long as any first move is pending, every player is
still marked alive.  It justifies the side conditions of the placement
claims. -/
def gameInv (s : State) : Prop :=
  wfState s ∧ restState s ∧
  (s.first_moves.any id = true →
    ∀ p, p < PLAYERS → s.players_alive.getD p false = true)

-- Theorems.

-- Basic lemmas about list reads and writes.

theorem getD_set_self {α : Type} (l : List α) (i : Nat) (v d : α)
    (h : i < List.length l) : List.getD (List.set l i v) i d = v := by
  induction l generalizing i with
  | nil => simp at h
  | cons x xs ih =>
    cases i with
    | zero => rfl
    | succ j =>
      simp only [List.set, List.getD, List.get?]
      have : j < List.length xs := by simpa using h
      simpa [List.getD] using ih j this

theorem getD_set_ne {α : Type} (l : List α) {i j : Nat} (v d : α)
    (h : i ≠ j) : List.getD (List.set l i v) j d = List.getD l j d := by
  induction l generalizing i j with
  | nil => simp
  | cons x xs ih =>
    cases i with
    | zero =>
      cases j with
      | zero => exact absurd rfl h
      | succ j' => rfl
    | succ i' =>
      cases j with
      | zero => rfl
      | succ j' =>
        have : i' ≠ j' := fun hh => h (by rw [hh])
        simpa [List.getD] using ih (i := i') (j := j') this

theorem getD_of_le {α : Type} (l : List α) (d : α) :
    ∀ r, List.length l ≤ r → List.getD l r d = d := by
  induction l with
  | nil => intro r _; cases r <;> rfl
  | cons x xs ih =>
    intro r hr
    cases r with
    | zero => simp at hr
    | succ r' => exact ih r' (by simpa using hr)

theorem length_getD_mem {α : Type} (g : List (List α)) (r : Nat) (n : Nat)
    (hall : ∀ row ∈ g, List.length row = n) (hr : r < List.length g) :
    List.length (List.getD g r []) = n := by
  induction g generalizing r with
  | nil => simp at hr
  | cons x xs ih =>
    cases r with
    | zero => exact hall x (by simp)
    | succ r' =>
      have hr' : r' < List.length xs := by simpa using hr
      have hall' : ∀ row ∈ xs, List.length row = n := fun row hrow =>
        hall row (List.mem_cons_of_mem x hrow)
      simpa [List.getD] using ih r' hall' hr'

theorem set_of_le {α : Type} (l : List α) (v : α) :
    ∀ i, List.length l ≤ i → List.set l i v = l := by
  induction l with
  | nil => intro i _; cases i <;> rfl
  | cons x xs ih =>
    intro i hi
    cases i with
    | zero => simp at hi
    | succ i' => simpa using ih i' (by simpa using hi)

theorem wf_setCell {g : Grid} (r c : Nat) (v : Cell) (h : wfGrid g) :
    wfGrid (setCell g r c v) := by
  obtain ⟨hlen, hrows⟩ := h
  by_cases hr : r < List.length g
  · constructor
    · simpa [setCell] using hlen
    · intro row hrow
      rcases List.mem_or_eq_of_mem_set hrow with h1 | h2
      · exact hrows row h1
      · subst h2
        rw [List.length_set]
        exact length_getD_mem g r COLS hrows hr
  · have hset : setCell g r c v = g := set_of_le g _ r (by omega)
    rw [hset]
    exact ⟨hlen, hrows⟩

theorem getCell_setCell_self {g : Grid} (hwf : wfGrid g) {r c : Nat}
    (hr : r < ROWS) (hc : c < COLS) (v : Cell) :
    getCell (setCell g r c v) r c = v := by
  obtain ⟨hlen, hrows⟩ := hwf
  have hr' : r < List.length g := by omega
  have hrowlen : List.length (List.getD g r []) = COLS :=
    length_getD_mem g r COLS hrows hr'
  unfold getCell setCell
  rw [getD_set_self _ _ _ _ (by simpa [hlen] using hr')]
  exact getD_set_self _ _ _ _ (by omega)

theorem getCell_setCell_ne {g : Grid} {r c i j : Nat}
    (hne : (i, j) ≠ (r, c)) (v : Cell) :
    getCell (setCell g r c v) i j = getCell g i j := by
  unfold getCell setCell
  by_cases hri : r = i
  · subst hri
    have hcj : c ≠ j := by
      intro h; exact hne (by rw [h])
    by_cases hr : r < List.length g
    · rw [getD_set_self _ _ _ _ hr]
      exact getD_set_ne _ _ _ hcj
    · rw [set_of_le g _ r (by omega)]
  · rw [getD_set_ne _ _ _ hri]

-- Neighbour facts.

theorem mem_get_neighbors {r c : Nat} (p : Nat × Nat) :
    p ∈ get_neighbors r c ↔
      (0 < r ∧ p = (r - 1, c)) ∨ (r < ROWS - 1 ∧ p = (r + 1, c)) ∨
      (0 < c ∧ p = (r, c - 1)) ∨ (c < COLS - 1 ∧ p = (r, c + 1)) := by
  unfold get_neighbors
  by_cases h1 : 0 < r <;> by_cases h2 : r < ROWS - 1 <;>
    by_cases h3 : 0 < c <;> by_cases h4 : c < COLS - 1 <;>
    simp [h1, h2, h3, h4]

theorem get_neighbors_not_self (r c : Nat) : (r, c) ∉ get_neighbors r c := by
  intro hmem
  rw [mem_get_neighbors] at hmem
  rcases hmem with ⟨h, he⟩ | ⟨h, he⟩ | ⟨h, he⟩ | ⟨h, he⟩ <;>
    · rw [Prod.ext_iff] at he
      try simp at he
      try omega

theorem get_neighbors_nodup (r c : Nat) : (get_neighbors r c).Nodup := by
  unfold get_neighbors
  by_cases h1 : 0 < r <;> by_cases h2 : r < ROWS - 1 <;>
    by_cases h3 : 0 < c <;> by_cases h4 : c < COLS - 1 <;>
    · try simp [h1, h2, h3, h4, Prod.ext_iff]
      try omega

theorem get_neighbors_bounds {r c : Nat} (hr : r < ROWS) (hc : c < COLS) :
    ∀ p ∈ get_neighbors r c, p.1 < ROWS ∧ p.2 < COLS := by
  intro p hp
  rw [mem_get_neighbors] at hp
  have h8r : r < 8 := hr
  have h8c : c < 8 := hc
  rcases hp with ⟨h, rfl⟩ | ⟨h, rfl⟩ | ⟨h, rfl⟩ | ⟨h, rfl⟩
  · constructor
    · show r - 1 < 8
      omega
    · show c < 8
      omega
  · have h' : r < 7 := h
    constructor
    · show r + 1 < 8
      omega
    · show c < 8
      omega
  · constructor
    · show r < 8
      omega
    · show c - 1 < 8
      omega
  · have h' : c < 7 := h
    constructor
    · show r < 8
      omega
    · show c + 1 < 8
      omega

-- Characterization of one explosion (`explodeCell`).

theorem bumpCell_fst (ow : Option Nat) (w : Nat) (acc : Grid × List (Nat × Nat × Nat))
    (p : Nat × Nat) :
    (bumpCell ow w acc p).1 =
      setCell acc.1 p.1 p.2 ⟨ow, (getCell acc.1 p.1 p.2).power + 1⟩ := by
  unfold bumpCell
  by_cases h : max_capacity p.1 p.2 ≤ (getCell acc.1 p.1 p.2).power + 1
  · simp only [if_pos h]
  · simp only [if_neg h]

theorem bumpCell_snd (ow : Option Nat) (w : Nat) (acc : Grid × List (Nat × Nat × Nat))
    (p : Nat × Nat) :
    (bumpCell ow w acc p).2 =
      if max_capacity p.1 p.2 ≤ (getCell acc.1 p.1 p.2).power + 1 then
        acc.2 ++ [(p.1, p.2, w + 1)]
      else acc.2 := by
  unfold bumpCell
  by_cases h : max_capacity p.1 p.2 ≤ (getCell acc.1 p.1 p.2).power + 1
  · simp only [if_pos h]
  · simp only [if_neg h]

theorem foldl_bump_wf (ow : Option Nat) (w : Nat) :
    ∀ (ns : List (Nat × Nat)) (g : Grid) (acc : List (Nat × Nat × Nat)),
      wfGrid g → wfGrid (ns.foldl (bumpCell ow w) (g, acc)).1 := by
  intro ns
  induction ns with
  | nil => intro g acc hwf; simpa using hwf
  | cons p ps ih =>
    intro g acc hwf
    rw [List.foldl_cons]
    have hpair : bumpCell ow w (g, acc) p =
        ((bumpCell ow w (g, acc) p).1, (bumpCell ow w (g, acc) p).2) := rfl
    rw [hpair, bumpCell_fst]
    exact ih _ _ (wf_setCell _ _ _ hwf)

theorem foldl_bump_fst (ow : Option Nat) (w : Nat) :
    ∀ (ns : List (Nat × Nat)) (g : Grid) (acc : List (Nat × Nat × Nat)),
      ns.Nodup → wfGrid g → (∀ p ∈ ns, p.1 < ROWS ∧ p.2 < COLS) →
      ∀ i j, i < ROWS → j < COLS →
        getCell (ns.foldl (bumpCell ow w) (g, acc)).1 i j =
          if (i, j) ∈ ns then ⟨ow, (getCell g i j).power + 1⟩
          else getCell g i j := by
  intro ns
  induction ns with
  | nil => intro g acc _ _ _ i j _ _; simp
  | cons p ps ih =>
    intro g acc hnd hwf hb i j hi hj
    rw [List.foldl_cons]
    have hpair : bumpCell ow w (g, acc) p =
        ((bumpCell ow w (g, acc) p).1, (bumpCell ow w (g, acc) p).2) := rfl
    rw [hpair, bumpCell_fst]
    have hpnotin : p ∉ ps := (List.nodup_cons.mp hnd).1
    have hndps : ps.Nodup := (List.nodup_cons.mp hnd).2
    have hbp := hb p (by simp)
    have hbps : ∀ q ∈ ps, q.1 < ROWS ∧ q.2 < COLS := fun q hq =>
      hb q (List.mem_cons_of_mem p hq)
    have hwf' : wfGrid (setCell g p.1 p.2 ⟨ow, (getCell g p.1 p.2).power + 1⟩) :=
      wf_setCell _ _ _ hwf
    rw [ih _ _ hndps hwf' hbps i j hi hj]
    by_cases hmem : (i, j) ∈ ps
    · have hne : (i, j) ≠ (p.1, p.2) := by
        intro he
        apply hpnotin
        have : p = (i, j) := by
          rw [he]
        rw [this]
        exact hmem
      rw [if_pos hmem, if_pos (List.mem_cons_of_mem p hmem),
        getCell_setCell_ne hne]
    · by_cases hp : (i, j) = p
      · have hmemc : (i, j) ∈ p :: ps := by rw [hp]; exact List.mem_cons_self p ps
        rw [if_neg hmem, if_pos hmemc]
        rw [Prod.ext_iff] at hp
        obtain ⟨hp1, hp2⟩ := hp
        simp only at hp1 hp2
        subst hp1
        subst hp2
        exact getCell_setCell_self hwf hbp.1 hbp.2 _
      · have hmemc : (i, j) ∉ p :: ps := by
          intro hx
          rcases List.mem_cons.mp hx with h1 | h2
          · exact hp h1
          · exact hmem h2
        have hne : (i, j) ≠ (p.1, p.2) := by
          intro he
          exact hp (by rw [he])
        rw [if_neg hmem, if_neg hmemc, getCell_setCell_ne hne]

theorem filterMap_ext_mem {α β : Type} (l : List α) (f₁ f₂ : α → Option β)
    (h : ∀ a ∈ l, f₁ a = f₂ a) : l.filterMap f₁ = l.filterMap f₂ := by
  induction l with
  | nil => rfl
  | cons x xs ih =>
    rw [List.filterMap_cons, List.filterMap_cons, h x (by simp),
      ih (fun a ha => h a (List.mem_cons_of_mem x ha))]

theorem foldl_bump_snd (ow : Option Nat) (w : Nat) :
    ∀ (ns : List (Nat × Nat)) (g : Grid) (acc : List (Nat × Nat × Nat)),
      ns.Nodup →
      (ns.foldl (bumpCell ow w) (g, acc)).2 =
        acc ++ ns.filterMap (fun p =>
          if max_capacity p.1 p.2 ≤ (getCell g p.1 p.2).power + 1 then
            some (p.1, p.2, w + 1)
          else none) := by
  intro ns
  induction ns with
  | nil => intro g acc _; simp
  | cons p ps ih =>
    intro g acc hnd
    rw [List.foldl_cons]
    have hpair : bumpCell ow w (g, acc) p =
        ((bumpCell ow w (g, acc) p).1, (bumpCell ow w (g, acc) p).2) := rfl
    rw [hpair, bumpCell_fst, bumpCell_snd]
    have hpnotin : p ∉ ps := (List.nodup_cons.mp hnd).1
    have hndps : ps.Nodup := (List.nodup_cons.mp hnd).2
    rw [ih _ _ hndps]
    have hsame : ∀ q ∈ ps,
        (fun p' : Nat × Nat =>
          if max_capacity p'.1 p'.2 ≤
              (getCell (setCell g p.1 p.2 ⟨ow, (getCell g p.1 p.2).power + 1⟩) p'.1 p'.2).power + 1 then
            some (p'.1, p'.2, w + 1)
          else none) q =
        (fun p' : Nat × Nat =>
          if max_capacity p'.1 p'.2 ≤ (getCell g p'.1 p'.2).power + 1 then
            some (p'.1, p'.2, w + 1)
          else none) q := by
      intro q hq
      have hne : (q.1, q.2) ≠ (p.1, p.2) := by
        intro he
        apply hpnotin
        have hqp : q = p := by
          rw [Prod.ext_iff] at he ⊢
          exact he
        rw [← hqp]
        exact hq
      simp only [getCell_setCell_ne hne]
    rw [filterMap_ext_mem _ _ _ hsame, List.filterMap_cons]
    by_cases hcond : max_capacity p.1 p.2 ≤ (getCell g p.1 p.2).power + 1
    · simp only [if_pos hcond]
      try simp
    · simp only [if_neg hcond]
      try simp

theorem explodeCell_fst {g : Grid} {r c : Nat} (w : Nat) (hwf : wfGrid g)
    (hr : r < ROWS) (hc : c < COLS) :
    ∀ i j, i < ROWS → j < COLS →
      getCell (explodeCell g r c w).1 i j =
        if (i, j) = (r, c) then ⟨none, 0⟩
        else if (i, j) ∈ get_neighbors r c then
          ⟨(getCell g r c).owner, (getCell g i j).power + 1⟩
        else getCell g i j := by
  intro i j hi hj
  unfold explodeCell
  have hwf0 : wfGrid (setCell g r c ⟨none, 0⟩) := wf_setCell _ _ _ hwf
  rw [foldl_bump_fst _ _ _ _ _ (get_neighbors_nodup r c) hwf0
    (get_neighbors_bounds hr hc) i j hi hj]
  by_cases hrc : (i, j) = (r, c)
  · rw [if_pos hrc]
    have hnb : (i, j) ∉ get_neighbors r c := by
      rw [hrc]
      exact get_neighbors_not_self r c
    rw [if_neg hnb]
    rw [Prod.ext_iff] at hrc
    obtain ⟨hp1, hp2⟩ := hrc
    simp only at hp1 hp2
    subst hp1
    subst hp2
    exact getCell_setCell_self hwf hr hc _
  · rw [if_neg hrc]
    by_cases hmem : (i, j) ∈ get_neighbors r c
    · rw [if_pos hmem, if_pos hmem, getCell_setCell_ne hrc]
    · rw [if_neg hmem, if_neg hmem, getCell_setCell_ne hrc]

theorem explodeCell_snd {g : Grid} {r c : Nat} (w : Nat) :
    (explodeCell g r c w).2 =
      (get_neighbors r c).filterMap (fun p =>
        if max_capacity p.1 p.2 ≤ (getCell g p.1 p.2).power + 1 then
          some (p.1, p.2, w + 1)
        else none) := by
  unfold explodeCell
  rw [foldl_bump_snd _ _ _ _ _ (get_neighbors_nodup r c)]
  rw [List.nil_append]
  apply filterMap_ext_mem
  intro q hq
  have hne : (q.1, q.2) ≠ (r, c) := by
    intro he
    have hq' : q = (r, c) := by
      rw [Prod.ext_iff] at he ⊢
      exact he
    rw [hq'] at hq
    exact get_neighbors_not_self r c hq
  simp only [getCell_setCell_ne hne]

theorem explodeCell_wf {g : Grid} {r c : Nat} (w : Nat) (hwf : wfGrid g) :
    wfGrid (explodeCell g r c w).1 := by
  unfold explodeCell
  exact foldl_bump_wf _ _ _ _ _ (wf_setCell _ _ _ hwf)

-- The initial scan.

theorem mem_scanQueue {g : Grid} {i j : Nat} (hi : i < ROWS) (hj : j < COLS)
    (hcap : max_capacity i j ≤ (getCell g i j).power) :
    (i, j, 0) ∈ scanQueue g := by
  unfold scanQueue
  rw [List.mem_flatMap]
  refine ⟨i, List.mem_range.mpr hi, ?_⟩
  rw [List.mem_filterMap]
  exact ⟨j, List.mem_range.mpr hj, by rw [if_pos hcap]⟩

theorem scanQueue_bounds {g : Grid} :
    ∀ e ∈ scanQueue g, e.1 < ROWS ∧ e.2.1 < COLS := by
  intro e he
  unfold scanQueue at he
  rw [List.mem_flatMap] at he
  obtain ⟨r, hr, he⟩ := he
  rw [List.mem_filterMap] at he
  obtain ⟨c, hc, he⟩ := he
  split at he
  · cases he
    exact ⟨List.mem_range.mp hr, List.mem_range.mp hc⟩
  · cases he

theorem range_filterMap_single {α : Type} (f : Nat → Option α) (n c0 : Nat)
    (v : α) (hc : c0 < n) (hone : f c0 = some v)
    (hrest : ∀ c, c < n → c ≠ c0 → f c = none) :
    (List.range n).filterMap f = [v] := by
  induction n with
  | zero => omega
  | succ m ih =>
    rw [List.range_succ, List.filterMap_append]
    by_cases hm : c0 = m
    · have hnil : (List.range m).filterMap f = [] := by
        rw [List.filterMap_eq_nil_iff]
        intro a ha
        exact hrest a (by have := List.mem_range.mp ha; omega)
          (by have := List.mem_range.mp ha; omega)
      rw [hnil]
      subst hm
      simp [hone]
    · have hc' : c0 < m := by omega
      rw [ih hc' (fun c h1 h2 => hrest c (by omega) h2)]
      have : f m = none := hrest m (by omega) (fun h => hm h.symm)
      simp [this]

theorem range_flatMap_single {α : Type} (f : Nat → List α) (n r0 : Nat)
    (v : α) (hr : r0 < n) (hone : f r0 = [v])
    (hrest : ∀ r, r < n → r ≠ r0 → f r = []) :
    (List.range n).flatMap f = [v] := by
  induction n with
  | zero => omega
  | succ m ih =>
    rw [List.range_succ, List.flatMap_append]
    by_cases hm : r0 = m
    · have hnil : (List.range m).flatMap f = [] := by
        rw [List.flatMap_eq_nil_iff]
        intro a ha
        exact hrest a (by have := List.mem_range.mp ha; omega)
          (by have := List.mem_range.mp ha; omega)
      rw [hnil]
      subst hm
      simp [hone]
    · have hr' : r0 < m := by omega
      rw [ih hr' (fun r h1 h2 => hrest r (by omega) h2)]
      have : f m = [] := hrest m (by omega) (fun h => hm h.symm)
      simp [this]

/-- When exactly one cell is at or above capacity, the initial scan
enqueues exactly that cell. -/
theorem scanQueue_single {g : Grid} {r c : Nat} (hr : r < ROWS) (hc : c < COLS)
    (hcap : max_capacity r c ≤ (getCell g r c).power)
    (hother : ∀ i j, i < ROWS → j < COLS → (i, j) ≠ (r, c) →
      (getCell g i j).power < max_capacity i j) :
    scanQueue g = [(r, c, 0)] := by
  unfold scanQueue
  apply range_flatMap_single _ ROWS r _ hr
  · apply range_filterMap_single _ COLS c _ hc
    · rw [if_pos hcap]
    · intro j hj hne
      have hlt := hother r j hr hj (by
        intro he
        rw [Prod.ext_iff] at he
        exact hne (by simpa using he.2))
      rw [if_neg (by omega)]
  · intro i hi hne
    rw [List.filterMap_eq_nil_iff]
    intro j hj
    have hjlt := List.mem_range.mp hj
    have hlt := hother i j hi hjlt (by
      intro he
      rw [Prod.ext_iff] at he
      exact hne (by simpa using he.1))
    rw [if_neg (by omega)]

-- The propagation loop keeps the invariant "every at-capacity cell has a
-- queue entry"; on normal completion no cell is left at capacity.

theorem runQueue_lt_cap :
    ∀ (fuel : Nat) (g : Grid) (q : List (Nat × Nat × Nat)) (g' : Grid),
      wfGrid g →
      (∀ e ∈ q, e.1 < ROWS ∧ e.2.1 < COLS) →
      (∀ i j, i < ROWS → j < COLS →
        max_capacity i j ≤ (getCell g i j).power → ∃ w, (i, j, w) ∈ q) →
      runQueue fuel g q = some g' →
      wfGrid g' ∧ ∀ i j, i < ROWS → j < COLS →
        (getCell g' i j).power < max_capacity i j := by
  intro fuel
  induction fuel with
  | zero =>
    intro g q g' hwf hqb hinv hrun
    cases q with
    | nil =>
      simp only [runQueue] at hrun
      cases hrun
      refine ⟨hwf, fun i j hi hj => ?_⟩
      by_contra hge
      obtain ⟨w, hw⟩ := hinv i j hi hj (by omega)
      simp at hw
    | cons e q' =>
      obtain ⟨r, c, w⟩ := e
      simp only [runQueue] at hrun
      cases hrun
  | succ n ih =>
    intro g q g' hwf hqb hinv hrun
    cases q with
    | nil =>
      simp only [runQueue] at hrun
      cases hrun
      refine ⟨hwf, fun i j hi hj => ?_⟩
      by_contra hge
      obtain ⟨w, hw⟩ := hinv i j hi hj (by omega)
      simp at hw
    | cons e q' =>
      obtain ⟨r, c, w⟩ := e
      simp only [runQueue] at hrun
      have hrb : r < ROWS ∧ c < COLS := hqb (r, c, w) (by simp)
      have hwf1 : wfGrid (explodeCell g r c w).1 := explodeCell_wf w hwf
      apply ih _ _ _ hwf1 ?_ ?_ hrun
      · intro e he
        rcases List.mem_append.mp he with h1 | h2
        · exact hqb e (List.mem_cons_of_mem _ h1)
        · rw [explodeCell_snd] at h2
          rw [List.mem_filterMap] at h2
          obtain ⟨p, hp, hpe⟩ := h2
          have hb := get_neighbors_bounds hrb.1 hrb.2 p hp
          split at hpe
          · cases hpe
            exact hb
          · cases hpe
      · intro i j hi hj hcap
        rw [explodeCell_fst w hwf hrb.1 hrb.2 i j hi hj] at hcap
        by_cases hrc : (i, j) = (r, c)
        · rw [if_pos hrc] at hcap
          simp [max_capacity] at hcap
        · rw [if_neg hrc] at hcap
          by_cases hmem : (i, j) ∈ get_neighbors r c
          · rw [if_pos hmem] at hcap
            refine ⟨w + 1, ?_⟩
            apply List.mem_append.mpr
            right
            rw [explodeCell_snd, List.mem_filterMap]
            refine ⟨(i, j), hmem, ?_⟩
            simpa using hcap
          · rw [if_neg hmem] at hcap
            obtain ⟨w', hw'⟩ := hinv i j hi hj hcap
            rcases List.mem_cons.mp hw' with h1 | h2
            · exfalso
              apply hrc
              rw [Prod.ext_iff] at h1 ⊢
              obtain ⟨ha, hb2⟩ := h1
              rw [Prod.ext_iff] at hb2
              exact ⟨ha, hb2.1⟩
            · exact ⟨w', List.mem_append.mpr (Or.inl h2)⟩

/-- Any normal completion of `check_explosions` leaves every cell
strictly below capacity. -/
theorem check_explosions_lt_cap {g g' : Grid} {fuel : Nat} (hwf : wfGrid g)
    (hrun : check_explosions g fuel = some g') :
    wfGrid g' ∧ ∀ i j, i < ROWS → j < COLS →
      (getCell g' i j).power < max_capacity i j := by
  apply runQueue_lt_cap fuel g (scanQueue g) g' hwf scanQueue_bounds ?_ hrun
  intro i j hi hj hcap
  exact ⟨0, mem_scanQueue hi hj hcap⟩

-- Helper facts about the non-grid operations.

theorem check_elimination_grid (s : State) : (check_elimination s).grid = s.grid := by
  simp only [check_elimination]
  split
  · rfl
  · split <;> rfl

theorem skipDead_grid :
    ∀ (n : Nat) (s s' : State), skipDead n s = some s' → s'.grid = s.grid := by
  intro n
  induction n with
  | zero => intro s s' h; simp [skipDead] at h
  | succ m ih =>
    intro s s' h
    unfold skipDead at h
    split at h
    · cases h
      rfl
    · have hgr := ih _ _ h
      rw [hgr]
      rfl

theorem advance_turn_grid {s s' : State} (h : advance_turn s = some s') :
    s'.grid = s.grid := by
  unfold advance_turn at h
  have hgr := skipDead_grid _ _ _ h
  rw [hgr]
  rfl

theorem getD_replicate {α : Type} (a d : α) :
    ∀ (n i : Nat), i < n → List.getD (List.replicate n a) i d = a := by
  intro n
  induction n with
  | zero => intro i h; omega
  | succ m ih =>
    intro i h
    cases i with
    | zero => rfl
    | succ i' => simpa [List.replicate, List.getD] using ih i' (by omega)

theorem restState_init (order : List Nat) : restState (init_state order) := by
  refine ⟨⟨by simp [init_state, ROWS], ?_⟩, ?_⟩
  · intro row hrow
    rw [List.eq_of_mem_replicate hrow]
    simp [COLS]
  · intro i hi j hj
    unfold init_state getCell
    simp only
    rw [getD_replicate _ _ ROWS i hi, getD_replicate _ _ COLS j hj]
    simp [Cell.new, max_capacity]

theorem elim_branch_restState {t s' : State}
    (hwf : wfGrid t.grid)
    (hlt : ∀ i, i < ROWS → ∀ j, j < COLS →
      (getCell t.grid i j).power < max_capacity i j)
    (h : (if (check_elimination t).game_over = true then some (check_elimination t)
          else advance_turn (check_elimination t)) = some s') :
    restState s' := by
  split at h
  · cases h
    refine ⟨?_, ?_⟩
    · rw [check_elimination_grid]
      exact hwf
    · intro i hi j hj
      rw [check_elimination_grid]
      exact hlt i hi j hj
  · have hgr := advance_turn_grid h
    refine ⟨?_, ?_⟩
    · rw [hgr, check_elimination_grid]
      exact hwf
    · intro i hi j hj
      rw [hgr, check_elimination_grid]
      exact hlt i hi j hj

theorem place_tile_restState {s s' : State} {r c fuel : Nat}
    (hs : restState s) (h : place_tile s r c fuel = some s') : restState s' := by
  simp only [place_tile] at h
  split at h
  · cases h
    exact hs
  · split at h
    · rcases hrun : check_explosions (setCell s.grid r c
        ⟨some s.current_player,
          if s.first_moves.getD s.current_player false then 3
          else (getCell s.grid r c).power + 1⟩) fuel with _ | g2
      · rw [hrun] at h
        simp at h
      · rw [hrun] at h
        simp only at h
        have hwf1 : wfGrid (setCell s.grid r c
            ⟨some s.current_player,
              if s.first_moves.getD s.current_player false then 3
              else (getCell s.grid r c).power + 1⟩) :=
          wf_setCell _ _ _ hs.1
        have hg2 := check_explosions_lt_cap hwf1 hrun
        exact elim_branch_restState hg2.1
          (fun i hi j hj => hg2.2 i j hi hj) h
    · cases h
      exact hs

theorem apply_moves_restState :
    ∀ (moves : List (Nat × Nat)) (s s' : State) (fuel : Nat),
      restState s → apply_moves s moves fuel = some s' → restState s' := by
  intro moves
  induction moves with
  | nil =>
    intro s s' fuel hs h
    simp only [apply_moves] at h
    cases h
    exact hs
  | cons m ms ih =>
    intro s s' fuel hs h
    obtain ⟨r, c⟩ := m
    simp only [apply_moves] at h
    rcases hp : place_tile s r c fuel with _ | s1
    · rw [hp] at h
      cases h
    · rw [hp] at h
      exact ih _ _ _ (place_tile_restState hs hp) h

theorem runQueue_nil (fuel : Nat) (g : Grid) : runQueue fuel g [] = some g := by
  cases fuel <;> rfl

/-- One `stepExplosion` is one unfolding of the fuelled loop. -/
theorem runQueue_eq_step (n : Nat) (g : Grid) (q : List (Nat × Nat × Nat)) :
    runQueue (n + 1) g q =
      match q with
      | [] => some g
      | _ :: _ => runQueue n (stepExplosion (g, q)).1 (stepExplosion (g, q)).2 := by
  cases q with
  | nil => rfl
  | cons e q' =>
    obtain ⟨r, c, w⟩ := e
    rfl

-- Turn-advance lemmas.

theorem skipDead_succ (n : Nat) (s : State) :
    skipDead (n + 1) s =
      if s.players_alive.getD s.current_player false = true then some s
      else skipDead n (advanceOnce s) := rfl

theorem advanceOnce_fields (s : State) :
    (advanceOnce s).grid = s.grid ∧
    (advanceOnce s).players = s.players ∧
    (advanceOnce s).player_order = s.player_order ∧
    (advanceOnce s).first_moves = s.first_moves ∧
    (advanceOnce s).players_alive = s.players_alive ∧
    (advanceOnce s).game_over = s.game_over ∧
    (advanceOnce s).winner = s.winner ∧
    (advanceOnce s).turn_number = (s.turn_number + 1) % s.players ∧
    (advanceOnce s).current_player =
      s.player_order.getD ((s.turn_number + 1) % s.players) 0 := by
  unfold advanceOnce
  exact ⟨rfl, rfl, rfl, rfl, rfl, rfl, rfl, rfl, rfl⟩

/-- Exiting the skip loop: the exiting state differs from the entry state
only in `turn_number`/`current_player`, the selected player is alive, the
selection respects `player_order`, and every skipped candidate was dead. -/
theorem skipDead_char :
    ∀ (n : Nat) (s s' : State),
      s.players = PLAYERS →
      s.current_player = s.player_order.getD (s.turn_number % s.players) 0 →
      s.turn_number < s.players →
      skipDead n s = some s' →
      s'.grid = s.grid ∧ s'.players = s.players ∧
      s'.player_order = s.player_order ∧ s'.first_moves = s.first_moves ∧
      s'.players_alive = s.players_alive ∧ s'.game_over = s.game_over ∧
      s'.winner = s.winner ∧
      s'.players_alive.getD s'.current_player false = true ∧
      s'.current_player = s'.player_order.getD (s'.turn_number % s'.players) 0 ∧
      ∃ k, k < n ∧ s'.turn_number = (s.turn_number + k) % s.players ∧
        ∀ m, m < k → s.players_alive.getD
          (s.player_order.getD ((s.turn_number + m) % s.players) 0) false = false := by
  intro n
  induction n with
  | zero => intro s s' _ _ _ h; simp [skipDead] at h
  | succ m ih =>
    intro s s' hp4 hcur hturn h
    have h4 : s.players = 4 := hp4
    rw [skipDead_succ] at h
    split at h
    · rename_i halive
      cases h
      refine ⟨rfl, rfl, rfl, rfl, rfl, rfl, rfl, halive, ?_, 0, by omega, ?_, ?_⟩
      · rw [hcur]
      · rw [h4]
        rw [h4] at hturn
        omega
      · intro m hm; omega
    · rename_i hdead
      have hfields := advanceOnce_fields s
      obtain ⟨hg, hp, ho, hf, ha, hgo, hw, ht, hc⟩ := hfields
      have hps : 0 < s.players := by omega
      have hcur' : (advanceOnce s).current_player =
          (advanceOnce s).player_order.getD
            ((advanceOnce s).turn_number % (advanceOnce s).players) 0 := by
        rw [hc, ho, ht, hp]
        congr 1
        rw [h4]
        omega
      have hturn' : (advanceOnce s).turn_number < (advanceOnce s).players := by
        rw [ht, hp]
        exact Nat.mod_lt _ hps
      have hp4' : (advanceOnce s).players = PLAYERS := by rw [hp, hp4]
      obtain ⟨hg2, hp2, ho2, hf2, ha2, hgo2, hw2, hal2, hcur2, k, hk, hkeq, hkdead⟩ :=
        ih (advanceOnce s) s' hp4' hcur' hturn' h
      refine ⟨by rw [hg2, hg], by rw [hp2, hp], by rw [ho2, ho],
        by rw [hf2, hf], by rw [ha2, ha], by rw [hgo2, hgo],
        by rw [hw2, hw], hal2, hcur2, k + 1, by omega, ?_, ?_⟩
      · rw [hkeq, ht, hp, h4]
        omega
      · intro j hj
        cases j with
        | zero =>
          have ht0 : (s.turn_number + 0) % s.players =
              s.turn_number % s.players := by
            rw [h4]
            omega
          have htt : s.turn_number % s.players = s.turn_number := by
            rw [h4]
            rw [h4] at hturn
            omega
          rw [ht0, htt]
          rw [htt] at hcur
          rw [← hcur]
          simpa using hdead
        | succ j' =>
          have hkd := hkdead j' (by omega)
          rw [ha, ho, ht, hp] at hkd
          have harg : (s.turn_number + (j' + 1)) % s.players =
              ((s.turn_number + 1) % s.players + j') % s.players := by
            rw [h4]
            omega
          rw [harg]
          exact hkd

theorem advance_turn_char {s s' : State} (hp4 : s.players = PLAYERS)
    (hps : 0 < s.players) (h : advance_turn s = some s') :
    s'.grid = s.grid ∧ s'.players = s.players ∧
    s'.player_order = s.player_order ∧ s'.first_moves = s.first_moves ∧
    s'.players_alive = s.players_alive ∧ s'.game_over = s.game_over ∧
    s'.winner = s.winner ∧
    s'.players_alive.getD s'.current_player false = true ∧
    s'.current_player = s'.player_order.getD (s'.turn_number % s'.players) 0 ∧
    ∃ k, 1 ≤ k ∧ k ≤ PLAYERS ∧
      s'.turn_number = (s.turn_number + k) % s.players ∧
      ∀ m, 1 ≤ m → m < k → s.players_alive.getD
        (s.player_order.getD ((s.turn_number + m) % s.players) 0) false = false := by
  unfold advance_turn at h
  have h4 : s.players = 4 := hp4
  have hfields := advanceOnce_fields s
  obtain ⟨hg, hp, ho, hf, ha, hgo, hw, ht, hc⟩ := hfields
  have hcur' : (advanceOnce s).current_player =
      (advanceOnce s).player_order.getD
        ((advanceOnce s).turn_number % (advanceOnce s).players) 0 := by
    rw [hc, ho, ht, hp]
    congr 1
    rw [h4]
    omega
  have hturn' : (advanceOnce s).turn_number < (advanceOnce s).players := by
    rw [ht, hp]
    exact Nat.mod_lt _ hps
  have hp4' : (advanceOnce s).players = PLAYERS := by rw [hp, hp4]
  obtain ⟨hg2, hp2, ho2, hf2, ha2, hgo2, hw2, hal2, hcur2, k, hk, hkeq, hkdead⟩ :=
    skipDead_char PLAYERS (advanceOnce s) s' hp4' hcur' hturn' h
  refine ⟨by rw [hg2, hg], by rw [hp2, hp], by rw [ho2, ho],
    by rw [hf2, hf], by rw [ha2, ha], by rw [hgo2, hgo],
    by rw [hw2, hw], hal2, hcur2, k + 1, by omega, by
      have : PLAYERS = 4 := rfl
      omega, ?_, ?_⟩
  · rw [hkeq, ht, hp, h4]
    omega
  · intro m hm1 hmk
    obtain ⟨m', rfl⟩ : ∃ m', m = m' + 1 := ⟨m - 1, by omega⟩
    have hkd := hkdead m' (by omega)
    rw [ha, ho, ht, hp] at hkd
    have harg : (s.turn_number + (m' + 1)) % s.players =
        ((s.turn_number + 1) % s.players + m') % s.players := by
      rw [h4]
      omega
    rw [harg]
    exact hkd

theorem skipDead_isSome :
    ∀ (n : Nat) (s : State),
      s.players = PLAYERS →
      s.current_player = s.player_order.getD (s.turn_number % s.players) 0 →
      s.turn_number < s.players →
      (∃ k, k < n ∧ s.players_alive.getD
        (s.player_order.getD ((s.turn_number + k) % s.players) 0) false = true) →
      (skipDead n s).isSome = true := by
  intro n
  induction n with
  | zero => intro s _ _ _ hex; omega
  | succ m ih =>
    intro s hp4 hcur hturn hex
    have h4 : s.players = 4 := hp4
    rw [skipDead_succ]
    split
    · rfl
    · rename_i hdead
      have hfields := advanceOnce_fields s
      obtain ⟨hg, hp, ho, hf, ha, hgo, hw, ht, hc⟩ := hfields
      have hps : 0 < s.players := by omega
      have hcur' : (advanceOnce s).current_player =
          (advanceOnce s).player_order.getD
            ((advanceOnce s).turn_number % (advanceOnce s).players) 0 := by
        rw [hc, ho, ht, hp]
        congr 1
        rw [h4]
        omega
      have hturn' : (advanceOnce s).turn_number < (advanceOnce s).players := by
        rw [ht, hp]
        exact Nat.mod_lt _ hps
      apply ih (advanceOnce s) (by rw [hp, hp4]) hcur' hturn'
      obtain ⟨k, hk, halive⟩ := hex
      cases k with
      | zero =>
        exfalso
        apply hdead
        have ht0 : (s.turn_number + 0) % s.players = s.turn_number % s.players := by
          rw [h4]
          omega
        rw [ht0, ← hcur] at halive
        exact halive
      | succ k' =>
        refine ⟨k', by omega, ?_⟩
        rw [ha, ho, ht, hp]
        have harg : ((s.turn_number + 1) % s.players + k') % s.players =
            (s.turn_number + (k' + 1)) % s.players := by
          rw [h4]
          omega
        rw [harg]
        exact halive

theorem advance_turn_some {s : State} (hp4 : s.players = PLAYERS)
    (hexists : ∃ i, i < PLAYERS ∧
      s.players_alive.getD (s.player_order.getD i 0) false = true) :
    ∃ s', advance_turn s = some s' := by
  have h4 : s.players = 4 := hp4
  have hps : 0 < s.players := by omega
  have hfields := advanceOnce_fields s
  obtain ⟨hg, hp, ho, hf, ha, hgo, hw, ht, hc⟩ := hfields
  have hcur' : (advanceOnce s).current_player =
      (advanceOnce s).player_order.getD
        ((advanceOnce s).turn_number % (advanceOnce s).players) 0 := by
    rw [hc, ho, ht, hp]
    congr 1
    rw [h4]
    omega
  have hturn' : (advanceOnce s).turn_number < (advanceOnce s).players := by
    rw [ht, hp]
    exact Nat.mod_lt _ hps
  have hsome := skipDead_isSome PLAYERS (advanceOnce s) (by rw [hp, hp4])
    hcur' hturn' ?_
  · rw [Option.isSome_iff_exists] at hsome
    obtain ⟨s', hs'⟩ := hsome
    exact ⟨s', hs'⟩
  · obtain ⟨i, hi, halive⟩ := hexists
    have hi4 : i < 4 := hi
    refine ⟨(i + 4 - (s.turn_number + 1) % 4) % 4, ?_, ?_⟩
    · have : PLAYERS = 4 := rfl
      omega
    · rw [ha, ho, ht, hp, h4]
      have harg : ((s.turn_number + 1) % 4 +
          (i + 4 - (s.turn_number + 1) % 4) % 4) % 4 = i := by omega
      rw [harg]
      exact halive

theorem place_tile_gameOver {s : State} {r c fuel : Nat}
    (h : s.game_over = true) : place_tile s r c fuel = some s := by
  simp only [place_tile, h]
  rfl

theorem apply_moves_gameOver {s : State} (h : s.game_over = true) :
    ∀ (moves : List (Nat × Nat)) (fuel : Nat), apply_moves s moves fuel = some s := by
  intro moves
  induction moves with
  | nil => intro fuel; rfl
  | cons mv ms ih =>
    intro fuel
    obtain ⟨r, c⟩ := mv
    simp only [apply_moves, place_tile_gameOver h]
    exact ih fuel

-- Elimination lemmas.

theorem player_has_tiles_iff (g : Grid) (p : Nat) :
    player_has_tiles g p = true ↔
      ∃ i, i < ROWS ∧ ∃ j, j < COLS ∧ (getCell g i j).owner = some p := by
  unfold player_has_tiles
  simp [List.any_eq_true, List.mem_range]

theorem getD_append_left {α : Type} :
    ∀ (l1 l2 : List α) (i : Nat) (d : α), i < l1.length →
      List.getD (l1 ++ l2) i d = List.getD l1 i d := by
  intro l1
  induction l1 with
  | nil => intro l2 i d h; simp at h
  | cons x xs ih =>
    intro l2 i d h
    cases i with
    | zero => rfl
    | succ i' => simpa [List.getD] using ih l2 i' d (by simpa using h)

theorem getD_append_right {α : Type} :
    ∀ (l1 l2 : List α) (i : Nat) (d : α), l1.length ≤ i →
      List.getD (l1 ++ l2) i d = List.getD l2 (i - l1.length) d := by
  intro l1
  induction l1 with
  | nil => intro l2 i d _; rfl
  | cons x xs ih =>
    intro l2 i d h
    cases i with
    | zero => simp at h
    | succ i' =>
      have := ih l2 i' d (by simpa using h)
      simpa [List.getD] using this

theorem getD_map_range {α : Type} (f : Nat → α) (d : α) :
    ∀ (n i : Nat), i < n → List.getD ((List.range n).map f) i d = f i := by
  intro n
  induction n with
  | zero => intro i h; omega
  | succ m ih =>
    intro i hi
    rw [List.range_succ, List.map_append]
    by_cases him : i < m
    · rw [getD_append_left _ _ _ _ (by simpa using him)]
      exact ih i him
    · have hieq : i = m := by omega
      subst hieq
      rw [getD_append_right _ _ _ _ (by simp)]
      simp

theorem aliveList_getD {g : Grid} {n p : Nat} (hp : p < n) :
    List.getD (aliveList g n) p false = player_has_tiles g p := by
  unfold aliveList
  exact getD_map_range _ _ n p hp

theorem countTrue_eq_zero {l : List Bool} :
    countTrue l = 0 ↔ ∀ b ∈ l, b = false := by
  induction l with
  | nil => simp [countTrue]
  | cons b t ih =>
    cases b
    · constructor
      · intro h b hb
        rcases List.mem_cons.mp hb with h1 | h2
        · exact h1
        · exact ih.mp (by simpa [countTrue, List.filter] using h) b h2
      · intro h
        have ht := ih.mpr (fun b hb => h b (List.mem_cons_of_mem _ hb))
        simpa [countTrue, List.filter] using ht
    · simp [countTrue, List.filter]

theorem getD_true_mem :
    ∀ (l : List Bool) (i : Nat), List.getD l i false = true → true ∈ l := by
  intro l
  induction l with
  | nil => intro i h; simp [List.getD] at h
  | cons b t ih =>
    intro i h
    cases i with
    | zero =>
      cases b
      · simp [List.getD] at h
      · simp
    | succ i' =>
      have := ih i' (by simpa [List.getD] using h)
      exact List.mem_cons_of_mem b this

theorem firstTrueIdx_unique :
    ∀ (l : List Bool) (p : Nat), countTrue l = 1 →
      List.getD l p false = true → firstTrueIdx l = some p := by
  intro l
  induction l with
  | nil => intro p h1 _; simp [countTrue] at h1
  | cons b t ih =>
    intro p h1 h2
    cases b
    · cases p with
      | zero => simp [List.getD] at h2
      | succ p' =>
        have h1' : countTrue t = 1 := by simpa [countTrue, List.filter] using h1
        have := ih p' h1' (by simpa [List.getD] using h2)
        simp [firstTrueIdx, this]
    · have h1' : countTrue t = 0 := by simpa [countTrue, List.filter] using h1
      cases p with
      | zero => simp [firstTrueIdx]
      | succ p' =>
        exfalso
        have hmem : true ∈ t := getD_true_mem t p' (by simpa [List.getD] using h2)
        have := countTrue_eq_zero.mp h1' true hmem
        simp at this

-- Remaining helper lemmas for the placement claims.

theorem scanQueue_nil_of_lt {g : Grid}
    (h : ∀ i, i < ROWS → ∀ j, j < COLS →
      (getCell g i j).power < max_capacity i j) :
    scanQueue g = [] := by
  unfold scanQueue
  rw [List.flatMap_eq_nil_iff]
  intro r hr
  rw [List.filterMap_eq_nil_iff]
  intro c hc
  have hlt := h r (List.mem_range.mp hr) c (List.mem_range.mp hc)
  rw [if_neg (by omega)]

/-- On an at-rest grid the explosion loop is an immediate no-op. -/
theorem check_explosions_noop {g : Grid} (fuel : Nat)
    (h : ∀ i, i < ROWS → ∀ j, j < COLS →
      (getCell g i j).power < max_capacity i j) :
    check_explosions g fuel = some g := by
  unfold check_explosions
  rw [scanQueue_nil_of_lt h]
  exact runQueue_nil fuel g

theorem getD_set_false (l : List Bool) (i : Nat) :
    List.getD (l.set i false) i false = false := by
  by_cases h : i < l.length
  · exact getD_set_self l i false false h
  · rw [set_of_le l false i (by omega)]
    exact getD_of_le l false i (by omega)

theorem check_elimination_keeps (s : State) :
    (check_elimination s).first_moves = s.first_moves ∧
    (check_elimination s).players = s.players ∧
    (check_elimination s).player_order = s.player_order ∧
    (check_elimination s).turn_number = s.turn_number ∧
    (check_elimination s).current_player = s.current_player := by
  unfold check_elimination
  dsimp only
  split
  · exact ⟨rfl, rfl, rfl, rfl, rfl⟩
  · split <;> exact ⟨rfl, rfl, rfl, rfl, rfl⟩

theorem check_elimination_alive {s : State}
    (hfm : s.first_moves.any id = false) :
    (check_elimination s).players_alive = aliveList s.grid s.players := by
  unfold check_elimination
  dsimp only
  rw [hfm]
  rw [if_neg (by simp)]
  split <;> rfl

-- Claim theorems.

set_option maxRecDepth 200000 in
/-- C1: evaluation at the failing input.  The five-call demo game (turn
order 0,1,2,3; first moves at (1,1),(0,1),(1,0),(0,0); then player 0
re-places on their own (1,1)) completes, and in the resulting rest state
cell (0,1) has `owner = none` but `power = 2`: the claimed
owner-is-none-iff-power-is-zero invariant fails on the code. -/
theorem c1_rest_invariant_fails :
    apply_moves demoStart demoMoves 10 = some demoFinal ∧
    (getCell demoFinal.grid 0 1).owner = none ∧
    (getCell demoFinal.grid 0 1).power = 2 := by
  refine ⟨by rfl, by rfl, by rfl⟩

set_option maxRecDepth 2000000 in
/-- C4: evaluation at the failing input.  Starting from the uniform
all-power-3 board owned by player 0 with a legal placement at (4,4), the
propagation loop is still running after 300 pops — the fuelled loop
returns `none` — with 686 entries queued (simulation of the same loop
shows the queue growing without bound, about 2.76 net entries per pop,
beyond 2x10^6 pops). -/
theorem c4_saturated_board_no_return :
    scanQueue satGrid = [(4, 4, 0)] ∧
    check_explosions satGrid 300 = none ∧
    (stepExplosion^[300] (satGrid, scanQueue satGrid)).2.length = 686 := by
  refine ⟨by decide, by rfl, by rfl⟩

set_option maxRecDepth 200000 in
/-- C10: within the propagation pass of the fifth demo call, the corner
(0,0) is enqueued twice without deduplication (queue `[(0,0,2), (0,0,2)]`
after three pops); the fourth pop explodes it normally, leaving it at
`(none, 0)` with the second entry still queued; the fifth pop re-explodes
it while its power is 0 and owner is `none`, incrementing both neighbours
and overwriting their owners with `none`.  The starting state is reachable
(the four first moves followed by player 0's legal re-placement). -/
theorem c10_no_dedup_double_explosion :
    apply_moves demoStart [(1, 1), (0, 1), (1, 0), (0, 0)] 10 = some demo4 ∧
    demo4.game_over = false ∧
    List.getD demo4.first_moves demo4.current_player false = false ∧
    (getCell demo4.grid 1 1).owner = some demo4.current_player ∧
    setCell demo4.grid 1 1 ⟨some demo4.current_player,
      (getCell demo4.grid 1 1).power + 1⟩ = c10Grid ∧
    scanQueue c10Grid = [(1, 1, 0)] ∧
    (stepExplosion^[3] (c10Grid, scanQueue c10Grid)).2 = [(0, 0, 2), (0, 0, 2)] ∧
    getCell (stepExplosion^[4] (c10Grid, scanQueue c10Grid)).1 0 0 = ⟨none, 0⟩ ∧
    (stepExplosion^[4] (c10Grid, scanQueue c10Grid)).2 = [(0, 0, 2)] ∧
    getCell (stepExplosion^[4] (c10Grid, scanQueue c10Grid)).1 1 0 = ⟨some 0, 1⟩ ∧
    getCell (stepExplosion^[4] (c10Grid, scanQueue c10Grid)).1 0 1 = ⟨some 0, 1⟩ ∧
    (stepExplosion^[5] (c10Grid, scanQueue c10Grid)).2 = [] ∧
    getCell (stepExplosion^[5] (c10Grid, scanQueue c10Grid)).1 1 0 = ⟨none, 2⟩ ∧
    getCell (stepExplosion^[5] (c10Grid, scanQueue c10Grid)).1 0 1 = ⟨none, 2⟩ ∧
    check_explosions c10Grid 10 =
      some (stepExplosion^[5] (c10Grid, scanQueue c10Grid)).1 := by
  decide

/-- C2: on a board where exactly one cell is at or above capacity and
every neighbour of that cell stays below capacity after one increment,
explosion propagation explodes exactly that cell: it is reset to
`(owner = none, power = 0)`, each neighbour gains 1 power and is given the
exploding cell's prior owner unconditionally, every other cell is
untouched, and no further cell explodes (a single pop completes the
loop). -/
theorem c2_single_explosion_shape {g : Grid} {r c : Nat} (hwf : wfGrid g)
    (hr : r < ROWS) (hc : c < COLS)
    (hcap : max_capacity r c ≤ (getCell g r c).power)
    (hother : ∀ i, i < ROWS → ∀ j, j < COLS → (i, j) ≠ (r, c) →
      (getCell g i j).power < max_capacity i j)
    (hnb : ∀ p ∈ get_neighbors r c,
      (getCell g p.1 p.2).power + 1 < max_capacity p.1 p.2)
    {fuel : Nat} (hfuel : 1 ≤ fuel) :
    check_explosions g fuel = some (explodeCell g r c 0).1 ∧
    ∀ i, i < ROWS → ∀ j, j < COLS →
      getCell (explodeCell g r c 0).1 i j =
        if (i, j) = (r, c) then ⟨none, 0⟩
        else if (i, j) ∈ get_neighbors r c then
          ⟨(getCell g r c).owner, (getCell g i j).power + 1⟩
        else getCell g i j := by
  constructor
  · obtain ⟨f, rfl⟩ : ∃ f, fuel = f + 1 := ⟨fuel - 1, by omega⟩
    unfold check_explosions
    rw [scanQueue_single hr hc hcap (fun i j hi hj hne => hother i hi j hj hne)]
    simp only [runQueue]
    have hsnd : (explodeCell g r c 0).2 = [] := by
      rw [explodeCell_snd]
      rw [List.filterMap_eq_nil_iff]
      intro p hp
      have hb := hnb p hp
      rw [if_neg (by omega)]
    rw [hsnd]
    rw [List.append_nil]
    exact runQueue_nil f _
  · exact fun i hi j hj => explodeCell_fst 0 hwf hr hc i j hi hj

/-- Witness for C2 at the corner instance: `cornerGrid` has only (0,0) at
capacity 4 with neighbours (1,0) and (0,1) at power 0; one pop leaves the
corner empty and the two neighbours at power 1 owned by player 0. -/
theorem c2_single_explosion_shape_witness :
    check_explosions cornerGrid 1 = some (explodeCell cornerGrid 0 0 0).1 ∧
    getCell (explodeCell cornerGrid 0 0 0).1 0 0 = ⟨none, 0⟩ ∧
    getCell (explodeCell cornerGrid 0 0 0).1 1 0 = ⟨some 0, 1⟩ ∧
    getCell (explodeCell cornerGrid 0 0 0).1 0 1 = ⟨some 0, 1⟩ := by
  have hmain := c2_single_explosion_shape (g := cornerGrid) (r := 0) (c := 0)
    ⟨by decide, by decide⟩ (by decide) (by decide) (by decide) (by decide)
    (by decide) (le_refl 1)
  refine ⟨hmain.1, ?_, ?_, ?_⟩
  · rw [hmain.2 0 (by decide) 0 (by decide)]
    decide
  · rw [hmain.2 1 (by decide) 0 (by decide)]
    decide
  · rw [hmain.2 0 (by decide) 1 (by decide)]
    decide

/-- C3: after every completed `place_tile` call of any game played from a
fresh state (any turn order, any move sequence, any fuel), every cell's
power is strictly below the capacity 4. -/
theorem c3_power_below_capacity (order : List Nat) (moves : List (Nat × Nat))
    (fuel : Nat) (s' : State)
    (h : apply_moves (init_state order) moves fuel = some s') :
    ∀ i, i < ROWS → ∀ j, j < COLS →
      (getCell s'.grid i j).power < max_capacity i j :=
  (apply_moves_restState moves (init_state order) s' fuel
    (restState_init order) h).2

/-- C5: while the current player's first move is pending (in a well-formed,
at-rest, not-game-over state with everyone alive), `place_tile` is accepted
iff the target cell is unowned; on acceptance the call completes, the cell
ends as `(owner = current player, power = 3)` and the player's first move
is marked done; on a non-empty target the call is a complete no-op. -/
theorem c5_first_move_rule (s : State) (r c fuel : Nat)
    (hrest : restState s) (hwfs : wfState s)
    (hgo : s.game_over = false)
    (hfm : s.first_moves.getD s.current_player false = true)
    (hr : r < ROWS) (hc : c < COLS)
    (halive : ∀ p, p < PLAYERS → s.players_alive.getD p false = true) :
    ((getCell s.grid r c).owner = none →
      ∃ s', place_tile s r c fuel = some s' ∧
        getCell s'.grid r c = ⟨some s.current_player, 3⟩ ∧
        List.getD s'.first_moves s.current_player false = false) ∧
    ((getCell s.grid r c).owner ≠ none → place_tile s r c fuel = some s) := by
  obtain ⟨hp4, hturn, hcur, horder, hwf⟩ := hwfs
  constructor
  · intro howner
    have hlt1 : ∀ i, i < ROWS → ∀ j, j < COLS →
        (getCell (setCell s.grid r c ⟨some s.current_player, 3⟩) i j).power <
          max_capacity i j := by
      intro i hi j hj
      by_cases hij : (i, j) = (r, c)
      · rw [Prod.ext_iff] at hij
        obtain ⟨h1, h2⟩ := hij
        simp only at h1 h2
        subst h1
        subst h2
        rw [getCell_setCell_self hwf hr hc]
        simp [max_capacity]
      · rw [getCell_setCell_ne hij]
        exact hrest.2 i hi j hj
    have hpt : place_tile s r c fuel =
        (if (check_elimination { s with
            grid := setCell s.grid r c ⟨some s.current_player, 3⟩,
            first_moves := s.first_moves.set s.current_player false }).game_over = true
         then some (check_elimination { s with
            grid := setCell s.grid r c ⟨some s.current_player, 3⟩,
            first_moves := s.first_moves.set s.current_player false })
         else advance_turn (check_elimination { s with
            grid := setCell s.grid r c ⟨some s.current_player, 3⟩,
            first_moves := s.first_moves.set s.current_player false })) := by
      simp only [place_tile]
      rw [if_neg (by rw [hgo]; simp)]
      rw [if_pos (Or.inl ⟨hfm, howner⟩)]
      rw [if_pos hfm, if_pos hfm]
      rw [check_explosions_noop fuel hlt1]
    have hkeeps := check_elimination_keeps { s with
      grid := setCell s.grid r c ⟨some s.current_player, 3⟩,
      first_moves := s.first_moves.set s.current_player false }
    have hgrid := check_elimination_grid { s with
      grid := setCell s.grid r c ⟨some s.current_player, 3⟩,
      first_moves := s.first_moves.set s.current_player false }
    by_cases hgo2 : (check_elimination { s with
        grid := setCell s.grid r c ⟨some s.current_player, 3⟩,
        first_moves := s.first_moves.set s.current_player false }).game_over = true
    · refine ⟨_, by rw [hpt, if_pos hgo2], ?_, ?_⟩
      · rw [hgrid]
        exact getCell_setCell_self hwf hr hc _
      · rw [hkeeps.1]
        exact getD_set_false _ _
    · have hsome := advance_turn_some (s := check_elimination { s with
          grid := setCell s.grid r c ⟨some s.current_player, 3⟩,
          first_moves := s.first_moves.set s.current_player false })
        (by rw [hkeeps.2.1]; exact hp4) ?_
      · obtain ⟨s', hs'⟩ := hsome
        have hchar := advance_turn_char (by rw [hkeeps.2.1]; exact hp4)
          (by rw [hkeeps.2.1]; show (0:Nat) < s.players; rw [hp4]; decide) hs'
        refine ⟨s', by rw [hpt, if_neg hgo2]; exact hs', ?_, ?_⟩
        · rw [hchar.1, hgrid]
          exact getCell_setCell_self hwf hr hc _
        · rw [hchar.2.2.2.1, hkeeps.1]
          exact getD_set_false _ _
      · by_cases hany : (List.set s.first_moves s.current_player false).any id = true
        · -- another player's first move is still pending: the elimination
          -- check is a no-op and everyone is still alive
          have hnoop : check_elimination { s with
              grid := setCell s.grid r c ⟨some s.current_player, 3⟩,
              first_moves := s.first_moves.set s.current_player false } =
              { s with
                grid := setCell s.grid r c ⟨some s.current_player, 3⟩,
                first_moves := s.first_moves.set s.current_player false } := by
            unfold check_elimination
            dsimp only
            rw [hany]
            rw [if_pos rfl]
          refine ⟨s.turn_number, hturn, ?_⟩
          rw [hnoop]
          exact halive _ (horder s.turn_number hturn)
        · -- every first move is now done: the current player owns the
          -- placed cell, so they are alive in the recomputed vector
          have hany' : (List.set s.first_moves s.current_player false).any id = false := by
            simpa using hany
          have halist := check_elimination_alive (s := { s with
            grid := setCell s.grid r c ⟨some s.current_player, 3⟩,
            first_moves := s.first_moves.set s.current_player false }) hany'
          have hcur' : s.player_order.getD s.turn_number 0 = s.current_player :=
            hcur.symm
          have hcp4 : s.current_player < 4 := by
            rw [hcur]
            exact horder s.turn_number hturn
          refine ⟨s.turn_number, hturn, ?_⟩
          rw [halist, hkeeps.2.2.1]
          dsimp only
          rw [hcur']
          rw [aliveList_getD (by simpa [hp4, PLAYERS] using hcp4)]
          rw [player_has_tiles_iff]
          exact ⟨r, hr, c, hc, by
            rw [getCell_setCell_self hwf hr hc]⟩
  · intro howner
    simp only [place_tile]
    rw [if_neg (by rw [hgo]; simp)]
    rw [if_neg ?hguard]
    case hguard =>
      rintro (⟨h1, h2⟩ | ⟨h1, h2⟩)
      · exact howner h2
      · rw [hfm] at h1
        cases h1

/-- Witness for C5: player 0's first move on the empty cell (2,3) is
accepted with power 3 and the first-move flag cleared; then player 1's
first move on the now-occupied (2,3) is rejected with no state change. -/
theorem c5_first_move_rule_witness :
    place_tile demoStart 2 3 6 = some c5After ∧
    getCell c5After.grid 2 3 = ⟨some 0, 3⟩ ∧
    List.getD c5After.first_moves 0 false = false ∧
    place_tile c5After 2 3 6 = some c5After := by
  have hmain := c5_first_move_rule demoStart 2 3 6
    ⟨⟨by decide, by decide⟩, by decide⟩
    ⟨by decide, by decide, by decide, by decide, by decide, by decide⟩
    (by decide) (by decide) (by decide) (by decide) (by decide)
  obtain ⟨hacc, _⟩ := hmain
  obtain ⟨s', hps', hcell, hfm'⟩ := hacc (by decide)
  have heq : c5After = s' := by
    unfold c5After
    rw [hps']
    rfl
  have hmain2 := c5_first_move_rule c5After 2 3 6
    ⟨⟨by decide, by decide⟩, by decide⟩
    ⟨by decide, by decide, by decide, by decide, by decide, by decide⟩
    (by decide) (by decide) (by decide) (by decide) (by decide)
  refine ⟨by rw [heq]; exact hps', by rw [heq]; exact hcell,
    by rw [heq]; exact hfm', hmain2.2 (by decide)⟩

/-- C6: an illegal placement — the game is over, or a pending first move
targets an owned cell, or a normal move targets a cell not owned by the
mover — leaves the entire game state unchanged (the very same state is
returned: no cell, turn, elimination or flag change). -/
theorem c6_illegal_noop (s : State) (r c fuel : Nat)
    (hill : s.game_over = true ∨
      (s.first_moves.getD s.current_player false = true ∧
        (getCell s.grid r c).owner ≠ none) ∨
      (s.first_moves.getD s.current_player false = false ∧
        (getCell s.grid r c).owner ≠ some s.current_player)) :
    place_tile s r c fuel = some s := by
  by_cases hgo : s.game_over = true
  · exact place_tile_gameOver hgo
  · simp only [place_tile]
    rw [if_neg hgo]
    rw [if_neg ?hg]
    case hg =>
      rcases hill with h | ⟨h1, h2⟩ | ⟨h1, h2⟩
      · exact absurd h hgo
      · rintro (⟨k1, k2⟩ | ⟨k1, k2⟩)
        · exact h2 k2
        · rw [h1] at k1
          cases k1
      · rintro (⟨k1, k2⟩ | ⟨k1, k2⟩)
        · rw [h1] at k1
          cases k1
        · exact h2 k2

/-- Witness for C6: in `elimState` the mover is player 1 with first move
done; placing on the unowned (0,0) is a no-op. -/
theorem c6_illegal_noop_witness : place_tile elimState 0 0 3 = some elimState := by
  refine c6_illegal_noop elimState 0 0 3 (Or.inr (Or.inr ⟨?_, ?_⟩)) <;> decide

/-- Shape of the elimination-then-advance tail of a legal `place_tile`,
for an arbitrary post-explosion state `t`. -/
theorem post_branch_char (t s' : State) (hp4 : t.players = PLAYERS)
    (h : (if (check_elimination t).game_over = true then some (check_elimination t)
          else advance_turn (check_elimination t)) = some s') :
    (s'.game_over = false →
      s'.players_alive.getD s'.current_player false = true ∧
      s'.current_player = s'.player_order.getD (s'.turn_number % s'.players) 0 ∧
      ∃ k, 1 ≤ k ∧ k ≤ PLAYERS ∧
        s'.turn_number = (t.turn_number + k) % t.players ∧
        ∀ m, 1 ≤ m → m < k → s'.players_alive.getD
          (t.player_order.getD ((t.turn_number + m) % t.players) 0) false = false) ∧
    (s'.game_over = true → s'.turn_number = t.turn_number ∧
      s'.current_player = t.current_player) ∧
    (s'.first_moves.any id = false → ∀ p, p < PLAYERS →
      (s'.players_alive.getD p false = true ↔
        player_has_tiles s'.grid p = true)) := by
  have hkeeps := check_elimination_keeps t
  have hgrid := check_elimination_grid t
  split at h
  · rename_i hgo2
    cases h
    refine ⟨?_, ?_, ?_⟩
    · intro h'
      rw [h'] at hgo2
      cases hgo2
    · intro _
      exact ⟨hkeeps.2.2.2.1, hkeeps.2.2.2.2⟩
    · intro hfall p hp
      rw [hkeeps.1] at hfall
      have halist := check_elimination_alive hfall
      rw [halist, hgrid]
      rw [aliveList_getD (by rw [hp4]; exact hp)]
  · rename_i hgo2
    have hps : 0 < (check_elimination t).players := by
      rw [hkeeps.2.1, hp4]
      decide
    have hchar := advance_turn_char (by rw [hkeeps.2.1]; exact hp4) hps h
    obtain ⟨hg2, hp2, ho2, hf2, ha2, hgo2', hw2, hal2, hcur2, k, hk1, hk4, hkeq, hkdead⟩ := hchar
    refine ⟨?_, ?_, ?_⟩
    · intro _
      refine ⟨hal2, hcur2, k, hk1, hk4, ?_, ?_⟩
      · rw [hkeq, hkeeps.2.2.2.1, hkeeps.2.1]
      · intro m hm1 hmk
        have := hkdead m hm1 hmk
        rw [hkeeps.2.2.1, hkeeps.2.2.2.1, hkeeps.2.1] at this
        rw [ha2]
        exact this
    · intro h'
      rw [hgo2'] at h'
      have : (check_elimination t).game_over = false := by
        cases hx : (check_elimination t).game_over
        · rfl
        · exact absurd hx hgo2
      rw [this] at h'
      cases h'
    · intro hfall p hp
      rw [hf2, hkeeps.1] at hfall
      have halist := check_elimination_alive hfall
      rw [ha2, halist, hg2, hgrid]
      rw [aliveList_getD (by rw [hp4]; exact hp)]

/-- C9: a completed legal `place_tile` runs the turn advance only when the
game is not over — it moves `turn_number` forward cyclically (by `k`
increments, `1 ≤ k ≤ 4`), sets `current_player = player_order[turn_number]`,
and every candidate skipped on the way was dead; when the game just ended
the turn does not advance.  Once all first moves are complete, `alive[p]`
(after the call) holds iff `p` owns a cell, so the selected current player
always owns at least one cell. -/
theorem c9_turn_advance (s s' : State) (r c fuel : Nat)
    (hwfs : wfState s) (hgo : s.game_over = false)
    (hlegal : (s.first_moves.getD s.current_player false = true ∧
        (getCell s.grid r c).owner = none) ∨
      (s.first_moves.getD s.current_player false = false ∧
        (getCell s.grid r c).owner = some s.current_player))
    (h : place_tile s r c fuel = some s') :
    (s'.game_over = false →
      s'.players_alive.getD s'.current_player false = true ∧
      s'.current_player = s'.player_order.getD (s'.turn_number % s'.players) 0 ∧
      ∃ k, 1 ≤ k ∧ k ≤ PLAYERS ∧
        s'.turn_number = (s.turn_number + k) % s.players ∧
        ∀ m, 1 ≤ m → m < k → s'.players_alive.getD
          (s.player_order.getD ((s.turn_number + m) % s.players) 0) false = false) ∧
    (s'.game_over = true → s'.turn_number = s.turn_number ∧
      s'.current_player = s.current_player) ∧
    (s'.first_moves.any id = false → ∀ p, p < PLAYERS →
      (s'.players_alive.getD p false = true ↔
        player_has_tiles s'.grid p = true)) := by
  obtain ⟨hp4, hturn, hcur, horder, hwf⟩ := hwfs
  simp only [place_tile] at h
  rw [if_neg (by rw [hgo]; simp), if_pos hlegal] at h
  rcases hrun : check_explosions (setCell s.grid r c
      ⟨some s.current_player,
        if s.first_moves.getD s.current_player false then 3
        else (getCell s.grid r c).power + 1⟩) fuel with _ | g2
  · rw [hrun] at h
    simp at h
  · rw [hrun] at h
    simp only at h
    exact post_branch_char ({ s with
      grid := g2
      first_moves := (if s.first_moves.getD s.current_player false = true then
          s.first_moves.set s.current_player false
        else s.first_moves) }) s' hp4 h

/-- Witness for C9 at the demo first move: after the call the selected
current player is alive and equals `player_order[turn_number]`. -/
theorem c9_turn_advance_witness :
    List.getD c5After.players_alive c5After.current_player false = true ∧
    c5After.current_player =
      c5After.player_order.getD (c5After.turn_number % c5After.players) 0 := by
  have h : place_tile demoStart 2 3 6 = some c5After := by rfl
  have hmain := c9_turn_advance demoStart c5After 2 3 6
    ⟨by decide, by decide, by decide, by decide, by decide, by decide⟩
    (by decide) (Or.inl ⟨by decide, by decide⟩) h
  have h1 := hmain.1 (by decide)
  exact ⟨h1.1, h1.2.1⟩

/-- C7: while any first move is pending the elimination check changes no
state; once every player has moved, it sets `alive[p]` true iff `p` owns a
cell, and when exactly one player is alive it sets `gameOver` and `winner`
to that player; a game-over state is left unchanged by every further
`place_tile` call, so those values persist. -/
theorem c7_elimination_check (s : State) :
    (s.first_moves.any id = true → check_elimination s = s) ∧
    (s.first_moves.any id = false →
      (∀ p, p < s.players →
        (List.getD (check_elimination s).players_alive p false = true ↔
          ∃ i, i < ROWS ∧ ∃ j, j < COLS ∧ (getCell s.grid i j).owner = some p)) ∧
      (countTrue (aliveList s.grid s.players) = 1 →
        (check_elimination s).game_over = true ∧
        ∀ p, p < s.players →
          List.getD (aliveList s.grid s.players) p false = true →
          (check_elimination s).winner = some p)) ∧
    ((check_elimination s).game_over = true →
      ∀ (moves : List (Nat × Nat)) (fuel : Nat),
        apply_moves (check_elimination s) moves fuel = some (check_elimination s)) := by
  refine ⟨?_, ?_, ?_⟩
  · intro hfm
    unfold check_elimination
    dsimp only
    rw [hfm]
    rw [if_pos rfl]
  · intro hfm
    constructor
    · intro p hp
      rw [check_elimination_alive hfm, aliveList_getD hp, player_has_tiles_iff]
    · intro hcnt
      constructor
      · unfold check_elimination
        dsimp only
        rw [hfm]
        rw [if_neg (by simp), hcnt, if_pos rfl]
      · intro p hp hpal
        unfold check_elimination
        dsimp only
        rw [hfm]
        rw [if_neg (by simp), hcnt, if_pos rfl]
        exact firstTrueIdx_unique _ p hcnt hpal
  · intro hgo moves fuel
    exact apply_moves_gameOver hgo moves fuel

/-- Witness for C7 at `elimState`: the elimination check marks player 1
(the only tile owner) as the winner, sets game over, and the state is then
frozen under further calls. -/
theorem c7_elimination_check_witness :
    List.getD (check_elimination elimState).players_alive 1 false = true ∧
    (check_elimination elimState).game_over = true ∧
    (check_elimination elimState).winner = some 1 ∧
    apply_moves (check_elimination elimState) [(0, 0), (3, 3)] 5 =
      some (check_elimination elimState) := by
  have hmain := c7_elimination_check elimState
  have hfm : elimState.first_moves.any id = false := by decide
  have hcnt : countTrue (aliveList elimState.grid elimState.players) = 1 := by decide
  obtain ⟨h1, h2, h3⟩ := hmain
  obtain ⟨hiff, hone⟩ := h2 hfm
  have hgo := (hone hcnt).1
  have hwin := (hone hcnt).2 1 (by decide) (by decide)
  refine ⟨?_, hgo, hwin, h3 hgo [(0, 0), (3, 3)] 5⟩
  exact (hiff 1 (by decide)).mpr ⟨2, by decide, 2, by decide, by decide⟩

/-- C8 counterexample: with all first moves made and zero alive players,
`check_elimination` does NOT mark `gameOver` (the claim says it still
marks `gameOver` true). -/
theorem c8_counterexample_zero_alive :
    c8State.first_moves.any id = false ∧
    countTrue (aliveList c8State.grid c8State.players) = 0 ∧
    ¬((check_elimination c8State).game_over = true) := by decide

/-- C8 amended: if, after all players have made their first move, the
elimination check finds zero players alive, it leaves `winner` unchanged
(unset) and also leaves `gameOver` unchanged — it does not mark game
over. -/
theorem c8_zero_alive_leaves_flags (s : State)
    (hfm : s.first_moves.any id = false)
    (hzero : ∀ p, p < s.players → player_has_tiles s.grid p = false) :
    (check_elimination s).winner = s.winner ∧
    (check_elimination s).game_over = s.game_over := by
  have hcnt : countTrue (aliveList s.grid s.players) = 0 := by
    rw [countTrue_eq_zero]
    intro b hb
    unfold aliveList at hb
    rw [List.mem_map] at hb
    obtain ⟨p, hp, rfl⟩ := hb
    exact hzero p (List.mem_range.mp hp)
  unfold check_elimination
  dsimp only
  rw [hfm]
  rw [if_neg (by simp), hcnt, if_neg (by decide)]
  exact ⟨rfl, rfl⟩

/-- Witness for C8's amended claim at `c8State`. -/
theorem c8_zero_alive_leaves_flags_witness :
    (check_elimination c8State).winner = none ∧
    (check_elimination c8State).game_over = false := by
  have hmain := c8_zero_alive_leaves_flags c8State (by decide) (by decide)
  exact ⟨by rw [hmain.1]; rfl, by rw [hmain.2]; rfl⟩

set_option maxRecDepth 100000 in
/-- Witness for C3: the demo game completes and e.g. cell (0,1) of the
final board is below capacity. -/
theorem c3_power_below_capacity_witness :
    (getCell demoFinal.grid 0 1).power < max_capacity 0 1 := by
  have h : apply_moves (init_state [0, 1, 2, 3]) demoMoves 10 = some demoFinal := by
    rfl
  exact c3_power_below_capacity [0, 1, 2, 3] demoMoves 10 demoFinal h
    0 (by decide) 1 (by decide)

-- Reachability: every state of a game played from a fresh state satisfies
-- `gameInv`, so the side conditions of the placement claims hold in every
-- reachable state.

theorem check_elimination_noop {s : State}
    (hfm : s.first_moves.any id = true) : check_elimination s = s := by
  unfold check_elimination
  dsimp only
  rw [hfm]
  rw [if_pos rfl]

theorem any_set_false {l : List Bool} {i : Nat}
    (h : (l.set i false).any id = true) : l.any id = true := by
  induction l generalizing i with
  | nil => simpa using h
  | cons b t ih =>
    cases i with
    | zero =>
      simp only [List.set, List.any_cons] at h ⊢
      rcases Bool.or_eq_true_iff.mp h with h1 | h2
      · cases h1
      · rw [h2]
        simp
    | succ i' =>
      simp only [List.set, List.any_cons] at h ⊢
      rcases Bool.or_eq_true_iff.mp h with h1 | h2
      · rw [h1]
        simp
      · rw [ih h2]
        simp

theorem any_of_getD_true {l : List Bool} {i : Nat}
    (h : List.getD l i false = true) : l.any id = true := by
  rw [List.any_eq_true]
  exact ⟨true, getD_true_mem l i h, rfl⟩

theorem post_branch_wf (t s' : State)
    (hp4 : t.players = PLAYERS) (hturn : t.turn_number < PLAYERS)
    (hcur : t.current_player = t.player_order.getD t.turn_number 0)
    (horder : ∀ i, i < PLAYERS → t.player_order.getD i 0 < PLAYERS)
    (halive : t.first_moves.any id = true →
      ∀ p, p < PLAYERS → t.players_alive.getD p false = true)
    (h : (if (check_elimination t).game_over = true then some (check_elimination t)
          else advance_turn (check_elimination t)) = some s') :
    s'.players = PLAYERS ∧ s'.turn_number < PLAYERS ∧
    s'.current_player = s'.player_order.getD s'.turn_number 0 ∧
    (∀ i, i < PLAYERS → s'.player_order.getD i 0 < PLAYERS) ∧
    (s'.first_moves.any id = true →
      ∀ p, p < PLAYERS → s'.players_alive.getD p false = true) := by
  have hkeeps := check_elimination_keeps t
  split at h
  · cases h
    refine ⟨by rw [hkeeps.2.1]; exact hp4,
      by rw [hkeeps.2.2.2.1]; exact hturn, ?_, ?_, ?_⟩
    · rw [hkeeps.2.2.2.2, hkeeps.2.2.1, hkeeps.2.2.2.1]
      exact hcur
    · intro i hi
      rw [hkeeps.2.2.1]
      exact horder i hi
    · intro hfm p hp
      rw [hkeeps.1] at hfm
      rw [check_elimination_noop hfm]
      exact halive hfm p hp
  · have hchar := advance_turn_char (by rw [hkeeps.2.1]; exact hp4)
      (by rw [hkeeps.2.1, hp4]; decide) h
    obtain ⟨hg2, hp2, ho2, hf2, ha2, hgo2, hw2, hal2, hcur2, k, hk1, hk4, hkeq, hkdead⟩ :=
      hchar
    have hp4' : s'.players = PLAYERS := by
      rw [hp2, hkeeps.2.1]
      exact hp4
    have hturn' : s'.turn_number < PLAYERS := by
      rw [hkeq, hkeeps.2.1, hp4]
      have : PLAYERS = 4 := rfl
      rw [this]
      omega
    refine ⟨hp4', hturn', ?_, ?_, ?_⟩
    · rw [hcur2]
      congr 1
      rw [Nat.mod_eq_of_lt]
      rw [hp4']
      exact hturn'
    · intro i hi
      rw [ho2, hkeeps.2.2.1]
      exact horder i hi
    · intro hfm p hp
      rw [hf2, hkeeps.1] at hfm
      rw [ha2, check_elimination_noop hfm]
      exact halive hfm p hp

theorem place_tile_gameInv {s s' : State} {r c fuel : Nat}
    (hinv : gameInv s) (h : place_tile s r c fuel = some s') : gameInv s' := by
  obtain ⟨⟨hp4, hturn, hcur, horder, hwf⟩, hrest, halive⟩ := hinv
  have hrest' := place_tile_restState hrest h
  refine ⟨?_, hrest', ?_⟩ <;>
  · simp only [place_tile] at h
    split at h
    · cases h
      first
      | exact ⟨hp4, hturn, hcur, horder, hwf⟩
      | exact halive
    · split at h
      · rcases hrun : check_explosions (setCell s.grid r c
            ⟨some s.current_player,
              if s.first_moves.getD s.current_player false then 3
              else (getCell s.grid r c).power + 1⟩) fuel with _ | g2
        · rw [hrun] at h
          simp at h
        · rw [hrun] at h
          simp only at h
          have halive' : (if s.first_moves.getD s.current_player false = true then
                s.first_moves.set s.current_player false
              else s.first_moves).any id = true →
              ∀ p, p < PLAYERS → s.players_alive.getD p false = true := by
            intro hfm p hp
            apply halive ?_ p hp
            split at hfm
            · exact any_set_false hfm
            · exact hfm
          have hpost := post_branch_wf ({ s with
            grid := g2
            first_moves := (if s.first_moves.getD s.current_player false = true then
                s.first_moves.set s.current_player false
              else s.first_moves) }) s' hp4 hturn hcur horder halive' h
          first
          | exact ⟨hpost.1, hpost.2.1, hpost.2.2.1, hpost.2.2.2.1, hrest'.1⟩
          | exact hpost.2.2.2.2
      · cases h
        first
        | exact ⟨hp4, hturn, hcur, horder, hwf⟩
        | exact halive

theorem gameInv_init (order : List Nat)
    (horder : ∀ i, i < PLAYERS → List.getD order i 0 < PLAYERS) :
    gameInv (init_state order) := by
  refine ⟨⟨rfl, by show (0:Nat) < PLAYERS; decide, rfl, horder,
    (restState_init order).1⟩, restState_init order, ?_⟩
  intro _ p hp
  show List.getD (List.replicate PLAYERS true) p false = true
  exact getD_replicate true false PLAYERS p hp

/-- Every reachable state of a game played from a fresh state (with a
valid shuffled order) is well-formed, at rest, and keeps every player
alive while any first move is pending — the side conditions assumed by
the placement claims. -/
theorem game_reachable_invariant (order : List Nat)
    (horder : ∀ i, i < PLAYERS → List.getD order i 0 < PLAYERS) :
    ∀ (moves : List (Nat × Nat)) (fuel : Nat) (s' : State),
      apply_moves (init_state order) moves fuel = some s' → gameInv s' := by
  have hstep : ∀ (moves : List (Nat × Nat)) (s s' : State) (fuel : Nat),
      gameInv s → apply_moves s moves fuel = some s' → gameInv s' := by
    intro moves
    induction moves with
    | nil =>
      intro s s' fuel hs h
      simp only [apply_moves] at h
      cases h
      exact hs
    | cons mv ms ih =>
      intro s s' fuel hs h
      obtain ⟨r, c⟩ := mv
      simp only [apply_moves] at h
      rcases hp : place_tile s r c fuel with _ | s1
      · rw [hp] at h
        cases h
      · rw [hp] at h
        exact ih _ _ _ (place_tile_gameInv hs hp) h
  intro moves fuel s' h
  exact hstep moves _ s' fuel (gameInv_init order horder) h

end ColorWar
